import Mathlib

/-!
Verification of the PNG loader (src/png_parser.c) against its
natural-language specification.  The C code is shallowly embedded:
byte buffers become `List Nat` (each entry a byte value), the read
cursor `struct png_state` becomes a structure holding the buffer and
the index, machine-integer overflow is made explicit with `% 256`
(uint8_t) and exact `Int` arithmetic where the C uses `int`.
Fallible operations return `Option`.
-/

/-- Embeds `struct png_state` (png_parser.c lines 66-70): the byte
buffer (`ptr` plus `size`) and the read position `index`. -/
structure png_state where
  buf : List Nat
  index : Nat
deriving Repr, DecidableEq

/-- Embeds `struct png_chunk` (png_parser.c lines 60-64).  `data` is the
payload view, embedded as the list of payload bytes. -/
structure png_chunk where
  size : Nat
  type : List Nat
  data : List Nat
deriving Repr, DecidableEq

/-- Embeds `be_host32` (lines 78-88): reassembles four memory bytes
big-endian, `out = b3 | b2 << 8 | b1 << 16 | b0 << 24`. -/
def be_host32 (buf : List Nat) : Nat :=
  Nat.lor (buf.getD 3 0)
    (Nat.lor (Nat.shiftLeft (buf.getD 2 0) 8)
      (Nat.lor (Nat.shiftLeft (buf.getD 1 0) 16)
        (Nat.shiftLeft (buf.getD 0 0) 24)))

/-- Embeds `png_fetchN` (lines 90-97): fails when
`index + count > size`, otherwise copies `count` bytes out and
advances the index by `count`. -/
def png_fetchN (state : png_state) (count : Nat) : Option (List Nat × png_state) :=
  if state.buf.length < state.index + count then none
  else some ((state.buf.drop state.index).take count,
             { state with index := state.index + count })

/-- Embeds `png_fetch_next_chunk` (lines 111-127): reads a 4-byte
big-endian length, a 4-byte type tag, checks
`index + size + 4 ≤ buffer length`, then returns a view of `size`
payload bytes and skips payload plus the 4 checksum bytes. -/
def png_fetch_next_chunk (state : png_state) : Option (png_chunk × png_state) :=
  match png_fetchN state 4 with
  | none => none
  | some (szBytes, s1) =>
    match png_fetchN s1 4 with
    | none => none
    | some (tyBytes, s2) =>
      let size := be_host32 szBytes
      if s2.buf.length < s2.index + size + 4 then none
      else some ({ size := size, type := tyBytes,
                   data := (s2.buf.drop s2.index).take size },
                 { s2 with index := s2.index + size + 4 })

/-- The 8-byte PNG signature `\x89PNG\r\n\x1A\n` (line 181). -/
def pngMagic : List Nat := [137, 80, 78, 71, 13, 10, 26, 10]

/-- Embeds `png_check` (lines 175-182): fails when the buffer holds
fewer than 8 bytes (leaving the state untouched); otherwise first
advances the index by 8 and then compares the 8 bytes at
`index - 8` with the PNG magic.  The `Bool` is `true` when the
signature matches (C returns 0). -/
def png_check (s : png_state) : Bool × png_state :=
  if s.buf.length < 8 then (false, s)
  else
    let s1 : png_state := { s with index := s.index + 8 }
    (decide ((s1.buf.drop (s1.index - 8)).take 8 = pngMagic), s1)

/-- The byte values of the 4-byte tag `IDAT`. -/
def idatTag : List Nat := [73, 68, 65, 84]

/-- The IDAT-gathering loop of `png_decompress_idat` (lines 140-148),
written with an explicit structural fuel.  Each loop iteration fetches
the next chunk; non-IDAT chunks are skipped, IDAT payloads are appended
in encounter order.  The loop ends when `png_fetch_next_chunk` fails. -/
def png_gather_idat_fuel : Nat → png_state → List Nat
  | 0, _ => []
  | fuel + 1, s =>
    match png_fetch_next_chunk s with
    | none => []
    | some (c, s1) =>
      (if c.type = idatTag then c.data else []) ++ png_gather_idat_fuel fuel s1

/-- Embeds the IDAT-gathering loop of `png_decompress_idat`
(lines 131-148).  The fuel `buf.length + 1 - index` is sufficient
because every successful fetch strictly advances the index while
keeping it at most `buf.length` (proved below in
`png_gather_idat_eq`), so the embedded function satisfies exactly the
recurrence of the C `while` loop. -/
def png_gather_idat (s : png_state) : List Nat :=
  png_gather_idat_fuel (s.buf.length + 1 - s.index) s

/-- The chunk sequence starting at a cursor state: repeatedly fetch
chunks until `png_fetch_next_chunk` fails, with the same fuel scheme
as `png_gather_idat_fuel`. -/
def pngChunksFuel : Nat → png_state → List png_chunk
  | 0, _ => []
  | fuel + 1, s =>
    match png_fetch_next_chunk s with
    | none => []
    | some (c, s1) => c :: pngChunksFuel fuel s1

/-- The full chunk sequence read from a cursor state. -/
def pngChunks (s : png_state) : List png_chunk :=
  pngChunksFuel (s.buf.length + 1 - s.index) s

/-- Embeds `png_sub_filter` (lines 184-189).  `line` holds the bytes
of the current row (filter byte excluded); earlier positions already
hold reconstructed values because the C code writes in place.  The
uint8_t addition wraps modulo 256. -/
def png_sub_filter (line : List Nat) (pixel_size x i : Nat) : Nat :=
  if x = 0 then line.getD (pixel_size * x + i) 0
  else (line.getD (pixel_size * x + i) 0 + line.getD (pixel_size * (x - 1) + i) 0) % 256

/-- Embeds `png_up_filter` (lines 191-196).  `prev_line` is `none`
when the C pointer is NULL (first row). -/
def png_up_filter (line : List Nat) (prev_line : Option (List Nat)) (pixel_size x i : Nat) : Nat :=
  match prev_line with
  | none => line.getD (pixel_size * x + i) 0
  | some prev => (line.getD (pixel_size * x + i) 0 + prev.getD (pixel_size * x + i) 0) % 256

/-- Embeds `png_avg_filter` (lines 199-210).  `left` and `top` default
to 0 when the neighbour is absent; the C sum `left + top` is computed
in `int`, hence exactly (it can reach 510), then divided by 2; only
the final uint8_t result wraps modulo 256. -/
def png_avg_filter (line : List Nat) (prev_line : Option (List Nat)) (pixel_size x i : Nat) : Nat :=
  let left := if x = 0 then 0 else line.getD (pixel_size * (x - 1) + i) 0
  let top := match prev_line with
    | none => 0
    | some prev => prev.getD (pixel_size * x + i) 0
  ((left + top) / 2 + line.getD (pixel_size * x + i) 0) % 256

/-- Embeds `png_abs` (lines 212-217), on the exact `int` values. -/
def png_abs (x : Int) : Int := if x < 0 then -x else x

/-- The per-byte arithmetic of `png_paeth_filter` (lines 219-247):
`a`, `b`, `c`, `d` are the neighbour reads (already resolved to 0 when
absent), the predictor `p = a + b - c` and the distances are computed
exactly in `int`, and the returned `d + chosen` truncates to uint8_t. -/
def paethRecon (d a b c : Nat) : Nat :=
  let p : Int := (a : Int) + (b : Int) - (c : Int)
  let pa : Int := png_abs (p - (a : Int))
  let pb : Int := png_abs (p - (b : Int))
  let pc : Int := png_abs (p - (c : Int))
  if pa ≤ pb ∧ pa ≤ pc then ((d : Int) + (a : Int)).toNat % 256
  else if pb ≤ pc then ((d : Int) + (b : Int)).toNat % 256
  else ((d : Int) + (c : Int)).toNat % 256

/-- Read of the previous row at byte offset `j`; 0 when the row is
absent (NULL `prev_line`) or the offset is out of range. -/
def upRead : Option (List Nat) → Nat → Nat
  | none, _ => 0
  | some pl, j => pl.getD j 0

/-- Embeds `png_paeth_filter` (lines 219-247): `a` is the left
neighbour (0 at column 0), `b` the up neighbour (0 on the first row),
`c` the up-left neighbour (0 when either is absent). -/
def png_paeth_filter (line : List Nat) (prev_line : Option (List Nat)) (pixel_size x i : Nat) : Nat :=
  paethRecon (line.getD (pixel_size * x + i) 0)
    (if x = 0 then 0 else line.getD (pixel_size * (x - 1) + i) 0)
    (upRead prev_line (pixel_size * x + i))
    (if x = 0 then 0 else upRead prev_line (pixel_size * (x - 1) + i))

/-- Embeds one iteration of the innermost defiltering loop
(lines 329-352 of `main`): compute `actual_value` by the `switch` on
the filter byte and write it back in place at `x * pixel_size + i`.
An out-of-range filter byte falls to the `default` arm, which prints a
diagnostic and stores the placeholder `0xFF`. -/
def defilterRowStep (t pixel_size : Nat) (prev : Option (List Nat)) (line : List Nat)
    (x i : Nat) : List Nat :=
  let actual : Nat :=
    match t with
    | 0 => line.getD (pixel_size * x + i) 0
    | 1 => png_sub_filter line pixel_size x i
    | 2 => png_up_filter line prev pixel_size x i
    | 3 => png_avg_filter line prev pixel_size x i
    | 4 => png_paeth_filter line prev pixel_size x i
    | _ => 255
  line.set (pixel_size * x + i) actual

/-- Embeds the two nested loops over `x` and `i` of one row
(lines 327-357 of `main`). -/
def defilterRow (t pixel_size width : Nat) (prev : Option (List Nat))
    (line : List Nat) : List Nat :=
  (List.range width).foldl
    (fun ln x => (List.range pixel_size).foldl
      (fun ln2 i => defilterRowStep t pixel_size prev ln2 x i) ln)
    line

/-- Embeds the row loop of `main` (lines 317-359): each scanline is a
pair of its leading filter-type byte and its data bytes; rows are
processed top to bottom, each row defiltered against the previous,
already reconstructed, row (`none` for the first row). -/
def defilterImage (pixel_size width : Nat) :
    Option (List Nat) → List (Nat × List Nat) → List (List Nat)
  | _, [] => []
  | prev, (t, line) :: rest =>
    let line1 := defilterRow t pixel_size width prev line
    line1 :: defilterImage pixel_size width (some line1) rest

/-- The parsed IHDR fields (lines 272-278 of `main`). -/
structure png_ihdr where
  width : Nat
  height : Nat
  bit_depth : Nat
  color_type : Nat
  compression : Nat
  filter : Nat
  interlace : Nat
deriving Repr, DecidableEq

/-- Embeds the IHDR field extraction of `main` (lines 272-278) from
the 13-byte chunk payload. -/
def parse_ihdr (data : List Nat) : png_ihdr :=
  { width := be_host32 (data.take 4)
  , height := be_host32 ((data.drop 4).take 4)
  , bit_depth := data.getD 8 0
  , color_type := data.getD 9 0
  , compression := data.getD 10 0
  , filter := data.getD 11 0
  , interlace := data.getD 12 0 }

/-- `is_truecolor` (line 283): `color_type & 0b010`. -/
def is_truecolor (h : png_ihdr) : Nat := Nat.land h.color_type 2

/-- `has_palette` (line 284): `color_type & 0b001`. -/
def has_palette (h : png_ihdr) : Nat := Nat.land h.color_type 1

/-- `has_alpha` (line 285): `color_type & 0b100`. -/
def has_alpha (h : png_ihdr) : Nat := Nat.land h.color_type 4

/-- Embeds the header-validation assertions of `main`
(lines 288, 291, 292): `assert(is_truecolor && !has_palette)`,
`assert(filter == 0)` and `assert(interlace == 0)`.  No other field is
examined; in particular `bit_depth` and `compression` are not. -/
def ihdr_checks_pass (h : png_ihdr) : Bool :=
  decide (is_truecolor h ≠ 0) && decide (has_palette h = 0) &&
    decide (h.filter = 0) && decide (h.interlace = 0)

/-- `pixel_size` (line 289): `(has_alpha ? 4 : 3) * (bit_depth / 8)`. -/
def pixel_size_of (h : png_ihdr) : Nat :=
  (if has_alpha h ≠ 0 then 4 else 3) * (h.bit_depth / 8)

/-- Modelled from the spec: the Paeth predictor choice of section 4.5
(the repository contains only the decoder; the encoder side referenced
by the round-trip property of section 8 is missing from src/).
`p = a + b - c`, distances computed exactly over the integers, and the
fixed tie-break order a, then b, then c. -/
def paethPredictor (a b c : Nat) : Nat :=
  let p : Int := (a : Int) + (b : Int) - (c : Int)
  let pa : Nat := (p - (a : Int)).natAbs
  let pb : Nat := (p - (b : Int)).natAbs
  let pc : Nat := (p - (c : Int)).natAbs
  if pa ≤ pb ∧ pa ≤ pc then a else if pb ≤ pc then b else c

/-- Modelled from the spec: one byte of the per-row PNG filter encoder
(sections 4.5 and 8; the repository contains no encoder).  The
predictor for type `t` is computed from the original bytes of the row
and of the previous original row (`left`, `up`, `up-left`, each 0 when
absent), and the encoder stores `raw = actual - predictor` with the
modulo-256 subtraction that matches the decoder addition. -/
def filterByte (t ps : Nat) (prev : Option (List Nat)) (orig : List Nat) (j : Nat) : Nat :=
  let a := if j < ps then 0 else orig.getD (j - ps) 0
  let b := upRead prev j
  let c := if j < ps then 0 else upRead prev (j - ps)
  let pred :=
    match t with
    | 0 => 0
    | 1 => a
    | 2 => b
    | 3 => (a + b) / 2
    | 4 => paethPredictor a b c
    | _ => 0
  (orig.getD j 0 + 256 - pred) % 256

/-- Modelled from the spec: the per-row PNG filter encoder applied to
one row of original bytes. -/
def filterRow (t ps : Nat) (prev : Option (List Nat)) (orig : List Nat) : List Nat :=
  (List.range orig.length).map (filterByte t ps prev orig)

/-- Modelled from the spec: the PNG filter encoder applied with one
filter type `t` to every row of an image, each row encoded against the
previous original row; emits (filter byte, encoded row) scanlines. -/
def filterImage (t ps : Nat) : Option (List Nat) → List (List Nat) → List (Nat × List Nat)
  | _, [] => []
  | prev, r :: rest => (t, filterRow t ps prev r) :: filterImage t ps (some r) rest

/-- The reconstruction of one byte at row offset `j`, expressed purely
in terms of `j` (proof form of the `switch` of `main` combined with
the neighbour reads of the four filter functions;
`defilterRowStep_eq_stepJ` proves the correspondence). -/
def reconAt (t ps : Nat) (prev : Option (List Nat)) (ln : List Nat) (j : Nat) : Nat :=
  match t with
  | 0 => ln.getD j 0
  | 1 => if j < ps then ln.getD j 0 else (ln.getD j 0 + ln.getD (j - ps) 0) % 256
  | 2 =>
    match prev with
    | none => ln.getD j 0
    | some pl => (ln.getD j 0 + pl.getD j 0) % 256
  | 3 => (((if j < ps then 0 else ln.getD (j - ps) 0) + upRead prev j) / 2 + ln.getD j 0) % 256
  | 4 => paethRecon (ln.getD j 0) (if j < ps then 0 else ln.getD (j - ps) 0)
      (upRead prev j) (if j < ps then 0 else upRead prev (j - ps))
  | _ => 255

/-- One in-place defiltering write at row offset `j` (proof form of
`defilterRowStep`). -/
def stepJ (t ps : Nat) (prev : Option (List Nat)) (ln : List Nat) (j : Nat) : List Nat :=
  ln.set j (reconAt t ps prev ln j)

/-- A concrete chunk stream: IDAT with payload [65, 66] (AB), then a
non-IDAT ancillary chunk, then IDAT with payload [67, 68] (CD); each
chunk is followed by 4 (unvalidated) checksum bytes. -/
def idatExampleBuf : List Nat :=
  [0, 0, 0, 2, 73, 68, 65, 84, 65, 66, 9, 9, 9, 9,
   0, 0, 0, 1, 116, 69, 88, 116, 42, 9, 9, 9, 9,
   0, 0, 0, 2, 73, 68, 65, 84, 67, 68, 9, 9, 9, 9]

/-! ## Cursor and chunk reader lemmas -/

/-- Everything `png_fetch_next_chunk` guarantees on success. -/
theorem fetch_chunk_some {s : png_state} {c : png_chunk} {s1 : png_state}
    (h : png_fetch_next_chunk s = some (c, s1)) :
    c.size = be_host32 ((s.buf.drop s.index).take 4) ∧
    c.type = (s.buf.drop (s.index + 4)).take 4 ∧
    c.data = (s.buf.drop (s.index + 8)).take c.size ∧
    s1.buf = s.buf ∧ s1.index = s.index + 8 + c.size + 4 ∧
    s1.index ≤ s.buf.length ∧ s.index + 8 ≤ s.buf.length := by
  by_cases h1 : s.buf.length < s.index + 4
  · simp [png_fetch_next_chunk, png_fetchN, h1] at h
  · by_cases h2 : s.buf.length < s.index + 4 + 4
    · simp [png_fetch_next_chunk, png_fetchN, h1, h2] at h
    · by_cases h3 : s.buf.length <
        s.index + 4 + 4 + be_host32 ((s.buf.drop s.index).take 4) + 4
      · simp only [png_fetch_next_chunk, png_fetchN, h1, h2, if_false] at h
        rw [if_pos h3] at h
        simp at h
      · simp only [png_fetch_next_chunk, png_fetchN, h1, h2, if_false] at h
        rw [if_neg h3] at h
        simp only [Option.some.injEq, Prod.mk.injEq] at h
        obtain ⟨hc, hs1⟩ := h
        subst hc
        subst hs1
        have e : s.index + 4 + 4 = s.index + 8 := by omega
        simp only []
        rw [e]
        exact ⟨trivial, trivial, trivial, trivial, trivial, by omega, by omega⟩

/-- `png_fetch_next_chunk` fails when the declared length runs past
the end of the buffer. -/
theorem fetch_chunk_long_none (s : png_state)
    (h8 : s.index + 8 ≤ s.buf.length)
    (hlong : s.buf.length < s.index + 8 + be_host32 ((s.buf.drop s.index).take 4) + 4) :
    png_fetch_next_chunk s = none := by
  have h1 : ¬ s.buf.length < s.index + 4 := by omega
  have h2 : ¬ s.buf.length < s.index + 4 + 4 := by omega
  simp only [png_fetch_next_chunk, png_fetchN, h1, h2, if_false]
  rw [if_pos (by omega)]

/-- When fetching fails, the chunk sequence ends. -/
theorem chunks_nil_of_fetch_none {s : png_state}
    (h : png_fetch_next_chunk s = none) : pngChunks s = [] := by
  unfold pngChunks
  cases s.buf.length + 1 - s.index with
  | zero => rfl
  | succ n => simp [pngChunksFuel, h]

/-- Claim C6: a cursor read of `n` bytes fails exactly when
`position + n > buffer.length` (returning no advanced state at all);
on success it returns the `n` bytes at the position and a state whose
position advanced by exactly `n`, and every state a successful read
returns satisfies `position ≤ buffer.length`. -/
theorem fetchN_contract (s : png_state) (n : Nat) :
    (s.buf.length < s.index + n → png_fetchN s n = none) ∧
    (s.index + n ≤ s.buf.length →
      png_fetchN s n = some ((s.buf.drop s.index).take n, ⟨s.buf, s.index + n⟩) ∧
      ((s.buf.drop s.index).take n).length = n) ∧
    (∀ out s1, png_fetchN s n = some (out, s1) →
      s1.buf = s.buf ∧ s1.index = s.index + n ∧ s1.index ≤ s.buf.length) := by
  refine ⟨fun h => by simp [png_fetchN, h], fun h => ?_, fun out s1 h => ?_⟩
  · have h1 : ¬ s.buf.length < s.index + n := by omega
    constructor
    · simp [png_fetchN, h1]
    · simp only [List.length_take, List.length_drop]
      omega
  · unfold png_fetchN at h
    by_cases h1 : s.buf.length < s.index + n
    · simp [h1] at h
    · rw [if_neg h1] at h
      simp only [Option.some.injEq, Prod.mk.injEq] at h
      obtain ⟨-, hs1⟩ := h
      subst hs1
      exact ⟨rfl, rfl, by simp; omega⟩

/-- Claim C6 witness: the contract applied at concrete states. -/
theorem fetchN_contract_witness :
    png_fetchN ⟨[1, 2, 3], 1⟩ 2 = some ([2, 3], ⟨[1, 2, 3], 3⟩) ∧
    png_fetchN ⟨[1, 2, 3], 2⟩ 4 = none :=
  ⟨((fetchN_contract ⟨[1, 2, 3], 1⟩ 2).2.1 (by decide)).1,
   (fetchN_contract ⟨[1, 2, 3], 2⟩ 4).1 (by decide)⟩

/-- Claim C5: `png_fetch_next_chunk` reads a 4-byte big-endian length
and a 4-byte type tag; on success the chunk holds exactly `length`
payload bytes and the cursor lands past the payload and the 4-byte
checksum; when the declared length exceeds the remaining bytes it
returns no chunk and the chunk sequence terminates. -/
theorem next_chunk_contract :
    (∀ (s : png_state) (c : png_chunk) (s1 : png_state),
      png_fetch_next_chunk s = some (c, s1) →
      c.size = be_host32 ((s.buf.drop s.index).take 4) ∧
      c.type = (s.buf.drop (s.index + 4)).take 4 ∧
      c.data = (s.buf.drop (s.index + 8)).take c.size ∧
      c.data.length = c.size ∧
      s1.buf = s.buf ∧ s1.index = s.index + 8 + c.size + 4) ∧
    (∀ s : png_state, s.index + 8 ≤ s.buf.length →
      s.buf.length < s.index + 8 + be_host32 ((s.buf.drop s.index).take 4) + 4 →
      png_fetch_next_chunk s = none ∧ pngChunks s = []) := by
  constructor
  · intro s c s1 h
    obtain ⟨hsz, hty, hdata, hbuf, hidx, hle, h8⟩ := fetch_chunk_some h
    refine ⟨hsz, hty, hdata, ?_, hbuf, hidx⟩
    rw [hdata]
    simp only [List.length_take, List.length_drop]
    omega
  · intro s h8 hlong
    have hnone := fetch_chunk_long_none s h8 hlong
    exact ⟨hnone, chunks_nil_of_fetch_none hnone⟩

/-- Claim C5 witness: a complete chunk is fetched with its exact
payload and cursor advance, and an over-long chunk yields no chunk and
an empty chunk sequence. -/
theorem next_chunk_contract_witness :
    ([99] : List Nat).length = (1 : Nat) ∧
    png_fetch_next_chunk ⟨[0, 0, 0, 5, 73, 68, 65, 84, 1, 2], 0⟩ = none ∧
    pngChunks ⟨[0, 0, 0, 5, 73, 68, 65, 84, 1, 2], 0⟩ = [] :=
  ⟨(next_chunk_contract.1 ⟨[0, 0, 0, 1, 73, 68, 65, 84, 99, 1, 2, 3, 4], 0⟩
      ⟨1, [73, 68, 65, 84], [99]⟩
      ⟨[0, 0, 0, 1, 73, 68, 65, 84, 99, 1, 2, 3, 4], 13⟩ (by decide)).2.2.2.1,
   (next_chunk_contract.2 ⟨[0, 0, 0, 5, 73, 68, 65, 84, 1, 2], 0⟩
      (by decide) (by decide)).1,
   (next_chunk_contract.2 ⟨[0, 0, 0, 5, 73, 68, 65, 84, 1, 2], 0⟩
      (by decide) (by decide)).2⟩

/-- Claim C9: on a fresh cursor over a buffer of at least 8 bytes the
signature check always leaves the position at 8 — also when the
signature mismatches — and it compares exactly the first 8 bytes with
the PNG magic; only for a buffer shorter than 8 bytes does the
position stay 0 (and the check fails). -/
theorem png_check_contract (buf : List Nat) :
    (8 ≤ buf.length →
      (png_check ⟨buf, 0⟩).2 = ⟨buf, 8⟩ ∧
      (png_check ⟨buf, 0⟩).1 = decide (buf.take 8 = pngMagic)) ∧
    (buf.length < 8 →
      (png_check ⟨buf, 0⟩).2 = ⟨buf, 0⟩ ∧ (png_check ⟨buf, 0⟩).1 = false) := by
  constructor
  · intro h
    have h8 : ¬ buf.length < 8 := by omega
    simp [png_check, h8]
  · intro h
    simp [png_check, h]

/-- Claim C9 witness: a non-matching 8-byte buffer still ends at
position 8; a 3-byte buffer stays at position 0. -/
theorem png_check_contract_witness :
    (png_check ⟨[78, 79, 84, 80, 78, 71, 13, 10], 0⟩).2 =
      (⟨[78, 79, 84, 80, 78, 71, 13, 10], 8⟩ : png_state) ∧
    (png_check ⟨[1, 2, 3], 0⟩).2 = (⟨[1, 2, 3], 0⟩ : png_state) :=
  ⟨((png_check_contract [78, 79, 84, 80, 78, 71, 13, 10]).1 (by decide)).1,
   ((png_check_contract [1, 2, 3]).2 (by decide)).1⟩

/-! ## Header validation -/

/-- Claim C10: the header assertions pass exactly when the truecolor
bit (0b010) of `color_type` is set, its palette bit (0b001) is clear,
and `filter` and `interlace` are 0; in particular every grayscale
`color_type` (truecolor bit clear) is rejected, whatever the other
fields — including `bit_depth = 8` — hold. -/
theorem header_requires_truecolor_without_palette :
    (∀ h : png_ihdr, ihdr_checks_pass h = true ↔
      (Nat.land h.color_type 2 ≠ 0 ∧ Nat.land h.color_type 1 = 0 ∧
        h.filter = 0 ∧ h.interlace = 0)) ∧
    (∀ h : png_ihdr, Nat.land h.color_type 2 = 0 → ihdr_checks_pass h = false) := by
  constructor
  · intro h
    simp [ihdr_checks_pass, is_truecolor, has_palette, and_assoc]
  · intro h hg
    simp [ihdr_checks_pass, is_truecolor, hg]

/-- Claim C10 witness: grayscale with alpha (color type 4) and plain
grayscale (color type 0) are rejected even at bit depth 8. -/
theorem header_requires_truecolor_without_palette_witness :
    ihdr_checks_pass ⟨1, 1, 8, 4, 0, 0, 0⟩ = false ∧
    ihdr_checks_pass ⟨1, 1, 8, 0, 0, 0, 0⟩ = false :=
  ⟨header_requires_truecolor_without_palette.2 ⟨1, 1, 8, 4, 0, 0, 0⟩ (by decide),
   header_requires_truecolor_without_palette.2 ⟨1, 1, 8, 0, 0, 0, 0⟩ (by decide)⟩

/-- Claim C2: contrary to the claim, the header validation of `main`
never examines `bit_depth`.  A truecolor header declaring
`bit_depth = 4` passes every assertion, so execution proceeds to IDAT
processing, with the degenerate derived `pixel_size` of 0
(`3 * (4 / 8)`). -/
theorem bit_depth_not_validated :
    ihdr_checks_pass (parse_ihdr [0, 0, 0, 1, 0, 0, 0, 1, 4, 2, 0, 0, 0]) = true ∧
    (parse_ihdr [0, 0, 0, 1, 0, 0, 0, 1, 4, 2, 0, 0, 0]).bit_depth = 4 ∧
    pixel_size_of (parse_ihdr [0, 0, 0, 1, 0, 0, 0, 1, 4, 2, 0, 0, 0]) = 0 := by
  decide

/-! ## Defiltering -/

/-- Claim C1: contrary to the claim, a filter-type byte outside 0-4
does not end defiltering.  The `default` arm of the `switch` stores
the placeholder 0xFF for every byte of the row and the row loop
continues: here row 0 carries filter type 5, becomes [255, 255], and
row 1 (filter type 2, Up) is still reconstructed — against the
placeholder values — producing a complete, supposedly valid output. -/
theorem invalid_filter_writes_placeholder_and_continues :
    defilterImage 1 2 none [(5, [1, 2]), (2, [7, 9])] = [[255, 255], [6, 8]] := by
  decide

/-- Claim C3 counterexample: with `left = 200`, `up = 100`, `raw = 0`
the code reconstructs `floor((200 + 100) / 2) = 150` — the sum 300 is
computed exactly in `int`, it does not wrap to 44 — whereas performing
all arithmetic modulo 256, as the claim states, would give
`floor(((200 + 100) mod 256) / 2) = 22`. -/
theorem avg_sum_does_not_wrap :
    png_avg_filter [200, 0] (some [0, 100]) 1 1 0 ≠
      (0 + ((200 + 100) % 256) / 2) % 256 := by
  decide

/-- Claim C3 (amended): a byte reconstructed under filter type 3
equals `(raw + floor((left + up) / 2)) mod 256` with truncating
division, `left`/`up` being 0 when the neighbour is absent, the inner
sum `left + up` computed exactly (it may exceed 255 without
wrapping), and only the final addition wrapping modulo 256. -/
theorem avg_filter_exact_inner_sum (line : List Nat) (prev : Option (List Nat))
    (ps x i : Nat) :
    png_avg_filter line prev ps x i =
      (line.getD (ps * x + i) 0 +
        ((if x = 0 then 0 else line.getD (ps * (x - 1) + i) 0) +
          upRead prev (ps * x + i)) / 2) % 256 := by
  cases prev <;> simp [png_avg_filter, upRead, Nat.add_comm]

/-- The `int` Paeth arithmetic of the decoder agrees with the
natural-number Paeth predictor followed by the modulo-256 addition. -/
theorem paethRecon_eq_pred (d a b c : Nat) :
    paethRecon d a b c = (d + paethPredictor a b c) % 256 := by
  simp only [paethRecon, paethPredictor, png_abs]
  split_ifs <;> omega

/-- Claim C8: every byte reconstructed under filter type 4 equals
`raw + chosen` modulo 256, where `chosen` is the Paeth predictor of
`a` (left), `b` (up), `c` (up-left) — each 0 when absent — computed
with exact integer distances and the fixed tie-break order a, b, c;
and whenever `a = b = c` the chosen predictor is `a`. -/
theorem paeth_filter_contract :
    (∀ (line : List Nat) (prev : Option (List Nat)) (ps x i : Nat),
      png_paeth_filter line prev ps x i =
        (line.getD (ps * x + i) 0 +
          paethPredictor (if x = 0 then 0 else line.getD (ps * (x - 1) + i) 0)
            (upRead prev (ps * x + i))
            (if x = 0 then 0 else upRead prev (ps * (x - 1) + i))) % 256) ∧
    (∀ a b c : Nat, a = b → b = c → paethPredictor a b c = a) := by
  constructor
  · intro line prev ps x i
    rw [png_paeth_filter, paethRecon_eq_pred]
  · intro a b c h1 h2
    subst h1
    subst h2
    simp only [paethPredictor]
    split_ifs <;> omega

/-- Claim C8 witness: the contract applied at a concrete byte
(raw 10, left 3, up 3, up-left 7) and a concrete three-way tie. -/
theorem paeth_filter_contract_witness :
    png_paeth_filter [3, 10] (some [7, 3]) 1 1 0 =
      (10 + paethPredictor 3 3 7) % 256 ∧
    paethPredictor 5 5 5 = 5 :=
  ⟨paeth_filter_contract.1 [3, 10] (some [7, 3]) 1 1 0,
   paeth_filter_contract.2 5 5 5 rfl rfl⟩

/-! ## IDAT gathering -/

/-- Extra fuel beyond the remaining-byte measure does not change the
gathered IDAT bytes: the loop always ends on a failed fetch first. -/
theorem gather_fuel_congr :
    ∀ f1 f2 : Nat, ∀ s : png_state,
      s.buf.length - s.index < f1 → s.buf.length - s.index < f2 →
      png_gather_idat_fuel f1 s = png_gather_idat_fuel f2 s := by
  intro f1
  induction f1 with
  | zero => intro f2 s h1 _; omega
  | succ n ih =>
    intro f2 s h1 h2
    cases f2 with
    | zero => omega
    | succ m =>
      rw [png_gather_idat_fuel, png_gather_idat_fuel]
      cases hf : png_fetch_next_chunk s with
      | none => rfl
      | some p =>
        obtain ⟨c, s1⟩ := p
        obtain ⟨-, -, -, hbuf, hidx, hle, -⟩ := fetch_chunk_some hf
        have hm : s1.buf.length - s1.index < n ∧ s1.buf.length - s1.index < m := by
          rw [hbuf]
          omega
        simp only [ih m s1 hm.1 hm.2]

/-- The embedded `png_gather_idat` satisfies exactly the recurrence of
the C `while` loop of `png_decompress_idat` (lines 140-148). -/
theorem png_gather_idat_eq (s : png_state) :
    png_gather_idat s =
      match png_fetch_next_chunk s with
      | none => []
      | some (c, s1) =>
        (if c.type = idatTag then c.data else []) ++ png_gather_idat s1 := by
  unfold png_gather_idat
  cases hF : s.buf.length + 1 - s.index with
  | zero =>
    have h4 : s.buf.length < s.index + 4 := by omega
    have hnone : png_fetch_next_chunk s = none := by
      simp [png_fetch_next_chunk, png_fetchN, h4]
    simp [png_gather_idat_fuel, hnone]
  | succ n =>
    rw [png_gather_idat_fuel]
    cases hf : png_fetch_next_chunk s with
    | none => rfl
    | some p =>
      obtain ⟨c, s1⟩ := p
      obtain ⟨-, -, -, hbuf, hidx, hle, -⟩ := fetch_chunk_some hf
      have h1 : s1.buf.length - s1.index < n := by rw [hbuf]; omega
      have h2 : s1.buf.length - s1.index < s1.buf.length + 1 - s1.index := by
        rw [hbuf]
        omega
      simp only [gather_fuel_congr n (s1.buf.length + 1 - s1.index) s1 h1 h2]

/-- With the same fuel, gathering equals filtering the chunk sequence
for the IDAT tag and flattening the payloads in order. -/
theorem gather_fuel_eq_filter (fuel : Nat) :
    ∀ s : png_state,
      png_gather_idat_fuel fuel s =
        (((pngChunksFuel fuel s).filter (fun c => decide (c.type = idatTag))).map
          png_chunk.data).flatten := by
  induction fuel with
  | zero => intro s; rfl
  | succ n ih =>
    intro s
    rw [png_gather_idat_fuel, pngChunksFuel]
    cases hf : png_fetch_next_chunk s with
    | none => rfl
    | some p =>
      obtain ⟨c, s1⟩ := p
      by_cases ht : c.type = idatTag
      · simp [ht, ih s1, List.filter_cons]
      · simp [ht, ih s1, List.filter_cons]

/-- Claim C7: the IDAT assembler selects exactly the chunks whose tag
is `IDAT` and concatenates their payloads in encounter order; on a
stream holding IDAT payloads AB then CD (with an ancillary chunk in
between) the assembled buffer is ABCD. -/
theorem gather_idat_in_order :
    (∀ s : png_state,
      png_gather_idat s =
        (((pngChunks s).filter (fun c => decide (c.type = idatTag))).map
          png_chunk.data).flatten) ∧
    png_gather_idat ⟨idatExampleBuf, 0⟩ = [65, 66, 67, 68] := by
  constructor
  · intro s
    exact gather_fuel_eq_filter _ s
  · decide

/-! ## Round-trip of the filters -/

/-- A default-read from a list of bytes is a byte. -/
theorem getD_lt_256 {l : List Nat} (h : ∀ b ∈ l, b < 256) (j : Nat) :
    l.getD j 0 < 256 := by
  rcases Nat.lt_or_ge j l.length with hj | hj
  · rw [List.getD_eq_getElem _ _ hj]
    exact h _ (List.getElem_mem hj)
  · rw [List.getD_eq_default _ _ hj]
    omega

/-- The `switch` step of `main` written as a function of the byte
offset `j = pixel_size * x + i` within the row. -/
theorem defilterRowStep_eq_stepJ (t ps : Nat) (prev : Option (List Nat)) (line : List Nat)
    (x i : Nat) (hi : i < ps) :
    defilterRowStep t ps prev line x i = stepJ t ps prev line (ps * x + i) := by
  rcases x with _ | n
  · unfold defilterRowStep stepJ reconAt png_sub_filter png_up_filter png_avg_filter
      png_paeth_filter
    rcases t with _ | _ | _ | _ | _ | t <;> cases prev <;> simp [hi, upRead]
  · have hj : ¬ ps * (n + 1) + i < ps := by
      rw [Nat.mul_succ]
      omega
    have hsub : ps * (n + 1) + i - ps = ps * n + i := by
      rw [Nat.mul_succ]
      omega
    unfold defilterRowStep stepJ reconAt png_sub_filter png_up_filter png_avg_filter
      png_paeth_filter
    rcases t with _ | _ | _ | _ | _ | t <;> cases prev <;> simp [hj, hsub, upRead]

/-- The encoder preserves the row length. -/
theorem filterRow_length (t ps : Nat) (prev : Option (List Nat)) (orig : List Nat) :
    (filterRow t ps prev orig).length = orig.length := by
  simp [filterRow]

/-- The encoded row reads back byte by byte as `filterByte`. -/
theorem filterRow_getD (t ps : Nat) (prev : Option (List Nat)) (orig : List Nat)
    (k : Nat) (hk : k < orig.length) :
    (filterRow t ps prev orig).getD k 0 = filterByte t ps prev orig k := by
  have hk2 : k < (filterRow t ps prev orig).length := by
    rw [filterRow_length]
    exact hk
  rw [List.getD_eq_getElem _ _ hk2]
  simp [filterRow]

/-- In the half-reconstructed row, position `k` still holds the raw
encoded byte. -/
theorem hybrid_getD_at (orig raw : List Nat) (k : Nat)
    (hraw : raw.length = orig.length) (hk : k < orig.length) :
    (orig.take k ++ raw.drop k).getD k 0 = raw.getD k 0 := by
  have hlen : (orig.take k).length = k := by
    simp
    omega
  rw [List.getD_append_right _ _ _ _ (by omega)]
  rw [hlen, Nat.sub_self]
  rw [List.drop_eq_getElem_cons (by omega : k < raw.length)]
  rw [List.getD_cons_zero]
  rw [List.getD_eq_getElem _ _ (by omega)]

/-- In the half-reconstructed row, positions before `k` already hold
the original bytes. -/
theorem hybrid_getD_lt (orig raw : List Nat) (k m : Nat) (hm : m < k)
    (hk : k ≤ orig.length) :
    (orig.take k ++ raw.drop k).getD m 0 = orig.getD m 0 := by
  have hlen : (orig.take k).length = k := by
    simp
    omega
  rw [List.getD_append _ _ _ _ (by omega)]
  rw [List.getD_eq_getElem _ _ (by omega), List.getD_eq_getElem _ _ (by omega)]
  simp

/-- Writing the reconstructed original byte at position `k` extends
the reconstructed prefix by one. -/
theorem hybrid_set (orig raw : List Nat) (k : Nat) (hk : k < orig.length)
    (hraw : raw.length = orig.length) :
    (orig.take k ++ raw.drop k).set k (orig.getD k 0) =
      orig.take (k + 1) ++ raw.drop (k + 1) := by
  have hlen : (orig.take k).length = k := by
    simp
    omega
  rw [List.set_append_right _ _ (by omega)]
  rw [hlen, Nat.sub_self]
  rw [List.drop_eq_getElem_cons (by omega : k < raw.length)]
  rw [List.set_cons_zero]
  rw [List.take_succ]
  have hsome : orig[k]? = some (orig.getD k 0) := by
    rw [List.getD_eq_getElem _ _ hk]
    exact List.getElem?_eq_getElem hk
  rw [hsome]
  simp

/-- The Paeth predictor is one of its three inputs. -/
theorem paethPredictor_cases (a b c : Nat) :
    paethPredictor a b c = a ∨ paethPredictor a b c = b ∨ paethPredictor a b c = c := by
  simp only [paethPredictor]
  split_ifs <;> simp

/-- Per-byte round trip: reconstructing position `k` of a
half-reconstructed encoded row recovers the original byte. -/
theorem reconAt_filterByte (t ps : Nat) (prev : Option (List Nat)) (orig raw : List Nat)
    (k : Nat) (ht : t ≤ 4) (hps : 1 ≤ ps) (hk : k < orig.length)
    (hraw : raw.length = orig.length)
    (hrawk : raw.getD k 0 = filterByte t ps prev orig k)
    (horig : ∀ b ∈ orig, b < 256)
    (hprev : ∀ j, upRead prev j < 256) :
    reconAt t ps prev (orig.take k ++ raw.drop k) k = orig.getD k 0 := by
  have hat := hybrid_getD_at orig raw k hraw hk
  have hbyte : orig.getD k 0 < 256 := getD_lt_256 horig k
  have hleft : ¬ k < ps →
      (orig.take k ++ raw.drop k).getD (k - ps) 0 = orig.getD (k - ps) 0 := by
    intro hkps
    exact hybrid_getD_lt orig raw k (k - ps) (by omega) (by omega)
  rcases t with _ | _ | _ | _ | _ | t
  · simp only [reconAt]
    rw [hat, hrawk]
    simp only [filterByte]
    omega
  · simp only [reconAt]
    by_cases hkps : k < ps
    · rw [if_pos hkps, hat, hrawk]
      simp only [filterByte]
      simp only [if_pos hkps]
      omega
    · rw [if_neg hkps, hat, hrawk, hleft hkps]
      simp only [filterByte]
      simp only [if_neg hkps]
      have ha : orig.getD (k - ps) 0 < 256 := getD_lt_256 horig _
      omega
  · cases prev with
    | none =>
      simp only [reconAt]
      rw [hat, hrawk]
      simp only [filterByte, upRead]
      omega
    | some pl =>
      simp only [reconAt]
      rw [hat, hrawk]
      simp only [filterByte, upRead]
      have hb : pl.getD k 0 < 256 := hprev k
      omega
  · simp only [reconAt]
    rw [hat, hrawk]
    simp only [filterByte]
    have hu : upRead prev k < 256 := hprev k
    by_cases hkps : k < ps
    · simp only [if_pos hkps]
      omega
    · simp only [if_neg hkps]
      rw [hleft hkps]
      have ha : orig.getD (k - ps) 0 < 256 := getD_lt_256 horig _
      omega
  · simp only [reconAt]
    rw [hat]
    have hu : upRead prev k < 256 := hprev k
    by_cases hkps : k < ps
    · simp only [if_pos hkps]
      rw [hrawk]
      simp only [filterByte]
      simp only [if_pos hkps]
      rw [paethRecon_eq_pred]
      rcases paethPredictor_cases 0 (upRead prev k) 0 with h | h | h <;> rw [h] <;> omega
    · simp only [if_neg hkps]
      rw [hleft hkps, hrawk]
      simp only [filterByte]
      simp only [if_neg hkps]
      rw [paethRecon_eq_pred]
      have ha : orig.getD (k - ps) 0 < 256 := getD_lt_256 horig _
      have hu2 : upRead prev (k - ps) < 256 := hprev (k - ps)
      rcases paethPredictor_cases (orig.getD (k - ps) 0) (upRead prev k)
          (upRead prev (k - ps)) with h | h | h <;> rw [h] <;> omega
  · omega

/-- Folding the in-place reconstruction over the first `k` positions
turns the encoded row into original prefix plus still-encoded tail. -/
theorem fold_stepJ_inv (t ps : Nat) (prev : Option (List Nat)) (orig : List Nat)
    (ht : t ≤ 4) (hps : 1 ≤ ps) (horig : ∀ b ∈ orig, b < 256)
    (hprev : ∀ j, upRead prev j < 256) :
    ∀ k, k ≤ orig.length →
      (List.range k).foldl (stepJ t ps prev) (filterRow t ps prev orig) =
        orig.take k ++ (filterRow t ps prev orig).drop k := by
  intro k
  induction k with
  | zero =>
    intro _
    simp
  | succ n ih =>
    intro hk
    rw [List.range_succ, List.foldl_append, ih (by omega)]
    simp only [List.foldl_cons, List.foldl_nil]
    rw [stepJ]
    rw [reconAt_filterByte t ps prev orig (filterRow t ps prev orig) n ht hps (by omega)
        (filterRow_length t ps prev orig) (filterRow_getD t ps prev orig n (by omega))
        horig hprev]
    exact hybrid_set orig (filterRow t ps prev orig) n (by omega)
      (filterRow_length t ps prev orig)

/-- The two nested loops over columns and channels visit the byte
offsets `0, 1, …, p * w - 1` in increasing order. -/
theorem foldl_nested_range (f : List Nat → Nat → List Nat) (w p : Nat) (init : List Nat) :
    (List.range w).foldl
      (fun l x => (List.range p).foldl (fun l2 i => f l2 (p * x + i)) l) init =
    (List.range (p * w)).foldl f init := by
  induction w generalizing init with
  | zero => simp
  | succ n ih =>
    rw [List.range_succ, List.foldl_append, ih]
    have hmul : p * (n + 1) = p * n + p := by ring
    rw [hmul, List.range_add, List.foldl_append, List.foldl_map]
    simp only [List.foldl_cons, List.foldl_nil]

/-- Row round trip: defiltering an encoded row against the original
previous row recovers the original row. -/
theorem defilterRow_filterRow (t ps width : Nat) (prev : Option (List Nat)) (orig : List Nat)
    (ht : t ≤ 4) (hps : 1 ≤ ps) (hlen : orig.length = ps * width)
    (horig : ∀ b ∈ orig, b < 256) (hprev : ∀ j, upRead prev j < 256) :
    defilterRow t ps width prev (filterRow t ps prev orig) = orig := by
  unfold defilterRow
  have hconv :
      (List.range width).foldl
        (fun ln x => (List.range ps).foldl
          (fun ln2 i => defilterRowStep t ps prev ln2 x i) ln)
        (filterRow t ps prev orig) =
      (List.range width).foldl
        (fun ln x => (List.range ps).foldl
          (fun ln2 i => stepJ t ps prev ln2 (ps * x + i)) ln)
        (filterRow t ps prev orig) := by
    apply List.foldl_ext
    intro acc x hx
    apply List.foldl_ext
    intro acc2 i hi
    exact defilterRowStep_eq_stepJ t ps prev acc2 x i (List.mem_range.mp hi)
  rw [hconv, foldl_nested_range (stepJ t ps prev) width ps _, ← hlen,
      fold_stepJ_inv t ps prev orig ht hps horig hprev orig.length (le_refl _)]
  have hdrop : (filterRow t ps prev orig).drop orig.length = [] := by
    rw [← filterRow_length t ps prev orig]
    exact List.drop_length _
  rw [hdrop, List.take_length, List.append_nil]

/-- Image round trip: defiltering an image encoded row by row (the
decoder consuming the reconstructed previous row equal to the
encoder's original previous row) recovers all rows. -/
theorem defilterImage_filterImage (t ps width : Nat)
    (ht : t ≤ 4) (hps : 1 ≤ ps) :
    ∀ (rows : List (List Nat)) (prev : Option (List Nat)),
      (∀ r ∈ rows, r.length = ps * width ∧ ∀ b ∈ r, b < 256) →
      (∀ j, upRead prev j < 256) →
      defilterImage ps width prev (filterImage t ps prev rows) = rows := by
  intro rows
  induction rows with
  | nil =>
    intro prev _ _
    rfl
  | cons r rest ih =>
    intro prev hrows hprev
    have hr := hrows r (by simp)
    simp only [filterImage, defilterImage]
    rw [defilterRow_filterRow t ps width prev r ht hps hr.1 hr.2 hprev]
    rw [ih (some r) (fun r2 h2 => hrows r2 (by simp [h2])) (fun j => getD_lt_256 hr.2 j)]

/-- Claim C4: for every filter type t in 0-4 and every image of at
least 2 pixel columns and at least 2 rows (bytes being bytes, rows of
the exact stride, pixel size at least 1), applying the PNG per-row
filter encoder with type t and then the defilterer of `main`
reproduces the original rows exactly. -/
theorem filter_defilter_roundtrip (t ps width : Nat) (rows : List (List Nat))
    (ht : t ≤ 4) (hps : 1 ≤ ps) (hw : 2 ≤ width) (hh : 2 ≤ rows.length)
    (hrows : ∀ r ∈ rows, r.length = ps * width ∧ ∀ b ∈ r, b < 256) :
    defilterImage ps width none (filterImage t ps none rows) = rows :=
  defilterImage_filterImage t ps width ht hps rows none hrows
    (fun _ => by simp [upRead])

/-- Claim C4 witness: a concrete 2x2 single-channel round trip under
the Paeth filter. -/
theorem filter_defilter_roundtrip_witness :
    defilterImage 1 2 none (filterImage 4 1 none [[200, 10], [30, 255]]) =
      [[200, 10], [30, 255]] :=
  filter_defilter_roundtrip 4 1 2 [[200, 10], [30, 255]]
    (by decide) (by decide) (by decide) (by decide) (by decide)
